import Mathlib

/-!
Verification development for the clinical AI-call severity aggregation and
investigation-text normalization core (`types_os.py`).

The Python source is shallowly embedded: pydantic models become structures
(with the model-validator invariant carried as a proof field), properties
become functions, raised exceptions become `Except.error` carrying the
message, and Python `None` results become `Option.none`.  Timestamps are
modelled as naturals (datetime is a totally ordered scale; only comparisons
are used).
-/

/-- Severity scale, `class Color(IntEnum)`: Green = 1, Yellow = 2, Red = 3. -/
inductive Color where
  | Green
  | Yellow
  | Red
deriving DecidableEq, Repr

/-- The integer value of a severity (the `IntEnum` value used by `max`). -/
def Color.toNat : Color → Nat
  | .Green => 1
  | .Yellow => 2
  | .Red => 3

/-- `class ClinicalDecisionRule(Enum)`: the closed set of categories. -/
inductive ClinicalDecisionRule where
  | TreatmentRecommendation
  | DiagnosisEvaluation
  | ClinicalNotes
  | VitalsChiefComplaintEvaluation
  | InvestigationRecommendations
deriving DecidableEq, Repr

/-- Iteration order of `for rule in ClinicalDecisionRule` (definition order). -/
def allRules : List ClinicalDecisionRule :=
  [.TreatmentRecommendation, .DiagnosisEvaluation, .ClinicalNotes,
   .VitalsChiefComplaintEvaluation, .InvestigationRecommendations]

/-- A raw severity value as it reaches validation: either a string or a value
that is already a member of the scale (the two shapes the spec names). -/
inductive RawSeverity where
  | str (s : String)
  | member (c : Color)
deriving DecidableEq, Repr

/-- `Color[v]`: enum lookup by symbolic name, case-sensitive. -/
def colorOfName (s : String) : Option Color :=
  if s = "Green" then some Color.Green
  else if s = "Yellow" then some Color.Yellow
  else if s = "Red" then some Color.Red
  else none

/-- `global_validate_severity` (`types_os.py:23`): a string is looked up by
name (`KeyError` becomes `ValueError("Invalid severity: ...")`); any
non-string input falls off the end of the function, returning Python `None`
(modelled as `.ok none`). -/
def global_validate_severity : RawSeverity → Except String (Option Color)
  | .str s =>
      match colorOfName s with
      | some c => .ok (some c)
      | none => .error ("Invalid severity: " ++ s)
  | .member _ => .ok none

/-- Modelled from the spec: the framework step missing from `src/` — pydantic
validates the `severity : Color` field with the value returned by the
`mode="before"` validator, and a `None` value is not a member of the scale, so
field validation rejects it.  A raised `ValueError` propagates unchanged. -/
def validateSeverityField (v : RawSeverity) : Except String Color :=
  match global_validate_severity v with
  | .error e => .error e
  | .ok (some c) => .ok c
  | .ok none => .error "Input should be an instance of Color"

/-- `class ResponseValue`: severity + free-text reason. -/
structure ResponseValue where
  severity : Color
  reason : String
deriving DecidableEq, Repr

/-- `class RecommendationValue`: severity + free-text action. -/
structure RecommendationValue where
  severity : Color
  action : String
deriving DecidableEq, Repr

/-- `class AIResponse`: the payload aggregate.  The `check_nonempty`
model-validator guarantees every constructed instance has at least one
finding, so the invariant is a field of the embedded structure. -/
structure AIResponse where
  responses : List ResponseValue
  recommendations : List RecommendationValue
  nonempty : responses ≠ [] ∨ recommendations ≠ []

/-- Construction of an `AIResponse` through the `check_nonempty`
model-validator (`types_os.py:53`): both lists empty is a `ValueError`. -/
def mkAIResponse (resp : List ResponseValue) (recs : List RecommendationValue) :
    Except String AIResponse :=
  if h : resp = [] ∧ recs = [] then
    .error "AIResponse must have at least one response value or at least one recommendation value"
  else
    .ok ⟨resp, recs, by
      rcases not_and_or.mp h with h1 | h1
      · exact Or.inl h1
      · exact Or.inr h1⟩

/-- All finding severities of a payload: response severities then
recommendation severities (the union the source pools before `max`). -/
def AIResponse.severityList (r : AIResponse) : List Color :=
  r.responses.map (·.severity) ++ r.recommendations.map (·.severity)

/-- `max` update step over a numeric measure: keep the current value unless
the new item is strictly larger, exactly CPython `max`. -/
def pickMax {α : Type} (val : α → Nat) (best x : α) : α :=
  if val best < val x then x else best

/-- `min` update step: replace the current value when the new item is
strictly smaller, exactly CPython `min`. -/
def pickMin {α : Type} (val : α → Nat) (best x : α) : α :=
  if val x < val best then x else best

/-- Python `max` over a sequence of severities; `none` models the
`ValueError` on an empty sequence. -/
def maxColorList : List Color → Option Color
  | [] => none
  | c :: rest => some (rest.foldl (pickMax Color.toNat) c)

/-- `class AICall`: one assessment instance (`types_os.py:62`). -/
structure AICall where
  rule : ClinicalDecisionRule
  response : AIResponse
  user_id : String
  time : Nat
  thumbs_up_down : String
  user_role_prompt : String
  silent : String
  acknowledged : Option Bool

/-- `AICall.color` (`types_os.py:72`): the maximum over the pooled response
and recommendation severities. -/
def AICall.color (call : AICall) : Option Color :=
  maxColorList call.response.severityList

/-- `class AICalls`: a list of calls plus an optional scope rule. -/
structure AICalls where
  calls : List AICall
  rule : Option ClinicalDecisionRule

/-- `AICalls.for_rule` (`types_os.py:88`): keep the calls of one rule, scope
the result to it. -/
def AICalls.for_rule (a : AICalls) (r : ClinicalDecisionRule) : AICalls :=
  ⟨a.calls.filter (fun c => decide (c.rule = r)), some r⟩

/-- `AICalls.for_rules` (`types_os.py:92`): keep the calls whose rule is in
the given list, with no scope. -/
def AICalls.for_rules (a : AICalls) (rs : List ClinicalDecisionRule) : AICalls :=
  ⟨a.calls.filter (fun c => decide (c.rule ∈ rs)), none⟩

/-- `AICalls.final` (`types_os.py:96`): no rule is a `ValueError`; an empty
collection is `None`; otherwise `max(self.calls, key=lambda c: c.time)`. -/
def AICalls.final (a : AICalls) : Except String (Option AICall) :=
  match a.rule with
  | none => .error "The final call is not defined for an AICalls object with no rule"
  | some _ =>
      match a.calls with
      | [] => .ok none
      | c :: rest => .ok (some (rest.foldl (pickMax AICall.time) c))

/-- `AICalls.first` (`types_os.py:104`): symmetric with `min`. -/
def AICalls.first (a : AICalls) : Except String (Option AICall) :=
  match a.rule with
  | none => .error "The first call is not defined for an AICalls object with no rule"
  | some _ =>
      match a.calls with
      | [] => .ok none
      | c :: rest => .ok (some (rest.foldl (pickMin AICall.time) c))

/-- `AICalls.final_color` (`types_os.py:112`): `final.color if final else None`;
a raise inside `.color` would propagate. -/
def AICalls.final_color (a : AICalls) : Except String (Option Color) :=
  match a.final with
  | .error e => .error e
  | .ok none => .ok none
  | .ok (some call) =>
      match call.color with
      | some col => .ok (some col)
      | none => .error "max() arg is an empty sequence"

/-- `AICalls.first_color` (`types_os.py:117`). -/
def AICalls.first_color (a : AICalls) : Except String (Option Color) :=
  match a.first with
  | .error e => .error e
  | .ok none => .ok none
  | .ok (some call) =>
      match call.color with
      | some col => .ok (some col)
      | none => .error "max() arg is an empty sequence"

/-- Membership test of a severity against one collected per-rule query value:
a `None` entry (empty sub-collection) never equals a severity, which is how
`color in {...}` ignores empty rules. -/
def colorMatches (x : Except String (Option Color)) (c : Color) : Bool :=
  match x with
  | .ok (some col) => decide (col = c)
  | _ => false

/-- `AICalls.any_final_color` (`types_os.py:122`): iterate the whole fixed
rule set, collect each scoped sub-collection's final color, test membership. -/
def AICalls.any_final_color (a : AICalls) (c : Color) : Bool :=
  allRules.any (fun r => colorMatches (a.for_rule r).final_color c)

/-- `AICalls.any_first_color` (`types_os.py:126`). -/
def AICalls.any_first_color (a : AICalls) (c : Color) : Bool :=
  allRules.any (fun r => colorMatches (a.for_rule r).first_color c)

/-- The call colors of a list of calls; `none` models a raise inside a
`.color` evaluation. -/
def listColors : List AICall → Option (List Color)
  | [] => some []
  | c :: rest =>
      match c.color, listColors rest with
      | some col, some cols => some (col :: cols)
      | _, _ => none

/-- `AICalls.colors_seen` (`types_os.py:130`): `None` when the collection is
empty, otherwise the set of every call's color. -/
def AICalls.colors_seen (a : AICalls) : Except String (Option (List Color)) :=
  match a.calls with
  | [] => .ok none
  | _ =>
      match listColors a.calls with
      | some cols => .ok (some cols)
      | none => .error "max() arg is an empty sequence"

/-- `AICalls.worst_color` (`types_os.py:137`): `max(colors) if colors else None`
(a falsy `colors` — `None` or the empty set — gives `None`). -/
def AICalls.worst_color (a : AICalls) : Except String (Option Color) :=
  match a.colors_seen with
  | .error e => .error e
  | .ok none => .ok none
  | .ok (some cols) =>
      match maxColorList cols with
      | some m => .ok (some m)
      | none => .ok none

/-- Every finding severity of every call in the collection, in call order. -/
def AICalls.allFindingSeverities (a : AICalls) : List Color :=
  (a.calls.map (fun c => c.response.severityList)).foldr (· ++ ·) []

/-! ## Investigation text normalizer (`ClinicalDocumentation.lab_test_clean`) -/

/-- Python whitespace (`str.strip`, regex `\s`) over the characters that can
occur here: space, tab, newline, carriage return, vertical tab, form feed. -/
def isPySpace (c : Char) : Bool :=
  c = ' ' || c = '\t' || c = '\n' || c = '\r' || c = '\x0b' || c = '\x0c'

/-- Fuelled body of `str.replace`: every recursive call consumes at least one
input character along with one unit of fuel, so `length + 1` fuel is never
exhausted and the out-of-fuel arm is unreachable. -/
def pyReplaceF (fuel : Nat) (s pat rep : List Char) : List Char :=
  match fuel, s, pat with
  | 0, s, _ => s
  | _ + 1, [], _ => []
  | _ + 1, c :: rest, [] => c :: rest
  | fuel + 1, c :: rest, p :: ps =>
      if (p :: ps).isPrefixOf (c :: rest) then
        rep ++ pyReplaceF fuel (rest.drop ps.length) (p :: ps) rep
      else
        c :: pyReplaceF fuel rest (p :: ps) rep

/-- `str.replace(pat, rep)`: all non-overlapping occurrences, left to right.
The empty pattern does not occur in the source and is left inert. -/
def pyReplace (s pat rep : List Char) : List Char :=
  pyReplaceF (s.length + 1) s pat rep

/-- Fuelled body of `str.split(pat)`; as with `pyReplaceF`, fuel
`length + 1` cannot run out. -/
def pySplitSubF (fuel : Nat) (s pat : List Char) : List (List Char) :=
  match fuel, s, pat with
  | 0, s, _ => [s]
  | _ + 1, s, [] => [s]
  | _ + 1, [], _ :: _ => [[]]
  | fuel + 1, c :: rest, p :: ps =>
      if (p :: ps).isPrefixOf (c :: rest) then
        [] :: pySplitSubF fuel (rest.drop ps.length) (p :: ps)
      else
        match pySplitSubF fuel rest (p :: ps) with
        | [] => [[c]]
        | h :: t => (c :: h) :: t

/-- `str.split(pat)` for a non-empty separator: non-overlapping occurrences,
left to right, empty pieces kept. -/
def pySplitSub (s pat : List Char) : List (List Char) :=
  pySplitSubF (s.length + 1) s pat

/-- `str.strip()`: drop leading and trailing whitespace. -/
def pyStrip (s : List Char) : List Char :=
  ((s.dropWhile isPySpace).reverse.dropWhile isPySpace).reverse

/-- `str.split(sep, maxsplit=1)` when the separator is a single character:
the text before the first occurrence and everything after it, or `none` when
the separator does not occur (in the source that is the `ValueError` of
unpacking a 1-element list into two names). -/
def splitFirstOn (sep : Char) : List Char → Option (List Char × List Char)
  | [] => none
  | c :: rest =>
      if c = sep then some ([], rest)
      else
        match splitFirstOn sep rest with
        | none => none
        | some (a, b) => some (c :: a, b)

/-- Scanning for the `[^,:]+?:` part of the lookahead: a colon is reached
before any comma (and before the end). -/
def scanColon : List Char → Bool
  | [] => false
  | c :: rest => if c = ':' then true else if c = ',' then false else scanColon rest

/-- The lookahead `(?=\s*[^,:]+?:)` tested just after a comma.  `\s*` may
match the empty string and every whitespace character is itself `[^,:]`, so
the lookahead succeeds exactly when the next character is neither `:` nor `,`
and a colon is reached before any comma. -/
def lookaheadOk : List Char → Bool
  | [] => false
  | c :: rest => if c = ':' || c = ',' then false else scanColon rest

/-- How many whitespace characters the greedy `\s*` of the split pattern
consumes after the comma: it extends while the lookahead still holds at the
position after the consumed prefix (backtracking keeps at least one `[^,:]`
character for the lookahead body). -/
def consumeWsCount : List Char → Nat
  | [] => 0
  | c :: rest =>
      if isPySpace c && lookaheadOk rest then consumeWsCount rest + 1 else 0

/-- Fuelled body of `re.split(r",\s*(?=[^,:]+?:)", value)`: cut at every
comma whose lookahead succeeds, dropping the comma and the whitespace the
match consumed; `acc` is the reversed chunk being accumulated.  Fuel
`length + 1` cannot run out. -/
def splitPairsF (fuel : Nat) (s : List Char) (acc : List Char) : List (List Char) :=
  match fuel, s with
  | 0, _ => [acc.reverse]
  | _ + 1, [] => [acc.reverse]
  | fuel + 1, c :: rest =>
      if c = ',' && lookaheadOk rest then
        acc.reverse :: splitPairsF fuel (rest.drop (consumeWsCount rest)) []
      else
        splitPairsF fuel rest (c :: acc)

/-- The comma tokenizer applied to a block body. -/
def splitPairs (s : List Char) : List (List Char) :=
  splitPairsF (s.length + 1) s []

/-- Ordered-dictionary insert (`d[k] = v`): overwrite in place when the key
exists, else append — Python dict insertion-order semantics. -/
def dictInsert (d : List (String × String)) (k v : String) : List (String × String) :=
  if d.any (fun p => decide (p.1 = k)) then
    d.map (fun p => if p.1 = k then (k, v) else p)
  else
    d ++ [(k, v)]

/-- Lookup of a key known to be present (`d[k]`). -/
def dictGet (d : List (String × String)) (k : String) : String :=
  match d.find? (fun p => decide (p.1 = k)) with
  | some p => p.2
  | none => ""

/-- The chunk loop of `lab_test_clean` (`types_os.py:350`): each chunk is
split on its first colon only, both halves stripped, and entered into the
ordered dict; a chunk with no colon raises. -/
def buildDictAux (d : List (String × String)) :
    List (List Char) → Except String (List (String × String))
  | [] => .ok d
  | ch :: rest =>
      match splitFirstOn ':' ch with
      | none => .error "not enough values to unpack (expected 2, got 1)"
      | some (k, v) =>
          buildDictAux (dictInsert d (String.mk (pyStrip k)) (String.mk (pyStrip v))) rest

/-- Substring test (Python `in` on strings). -/
def containsSub (needle : List Char) : List Char → Bool
  | [] => needle.isEmpty
  | c :: t => needle.isPrefixOf (c :: t) || containsSub needle t

/-- `"result" in k.lower() and k.endswith(".")` (`types_os.py:358`). -/
def isResultKey (k : String) : Bool :=
  containsSub "result".data (k.data.map Char.toLower) &&
    (match k.data.getLast? with
     | some c => decide (c = '.')
     | none => false)

/-- `INVESTIGATION_SUBFIELD_SORT_ORDER` (`types_os.py:235`). -/
def INVESTIGATION_SUBFIELD_SORT_ORDER : List (String × List String) :=
  [("Full Haemogram (FHG)",
    ["Result..", "WBC", "HGB", "HCT", "Plt", "RBC (Full Haemogram)", "MCV",
     "MCH", "MCHC", "RDW-CV", "RDW-SD", "Neutrophill percentage",
     "Mid-granulocyte Percentage", "Lymphocyte Percentage", "Neutrophill count",
     "Mid-granulocytes Count", "Lymphocytes Count", "MPV", "PDW", "PCT",
     "P-LCR", "P-LCC"]),
   ("Urine Analysis",
    ["Result..", "Colour.", "Appearance (Urine Analysis)", "pH (Dipstick)",
     "Specific Gravity", "Glucose", "Ketones", "Proteins", "Blood (Dipstick)",
     "Leukocytes", "Nitrate", "Urobilinogen", "Pus cells",
     "RBC\x27s (Urinalysis-Microscopy)", "Epithelial Cells",
     "Crystals -- Amount (Microscopy)", "Parasites (Urine Microscopy)",
     "Trichomonads (Urinalysis-Microscopy)", "Yeast cells (Microscopy)",
     "Amount of yeast cells", "Bilirubin.", "Casts - type", "Crystals -- Type"]),
   ("Stool Microscopy",
    ["Result..", "Colour", "Consistency", "Blood (Gross Appearance)", "Mucous",
     "RBC\x27s (Microscopy)", "Pus cells", "Parasites",
     "Yeast cells (Microscopy)", "Amount of yeast cells", "Crystals -- Amount",
     "Crystals -- Type"])]

/-- Table lookup by investigation name
(`investigation_name in INVESTIGATION_SUBFIELD_SORT_ORDER`). -/
def tableFind (name : String) : Option (List String) :=
  (INVESTIGATION_SUBFIELD_SORT_ORDER.find? (fun p => decide (p.1 = name))).map (·.2)

/-- `list.index(x)`: position of the first occurrence, `none` when absent. -/
def idxOf? (l : List String) (k : String) : Option Nat :=
  match l with
  | [] => none
  | x :: xs => if x = k then some 0 else (idxOf? xs k).map (· + 1)

/-- The decoration pass of `sorted(keys, key=...)` on the table path: every
key is mapped to its table index in iteration order; the first key absent
from the table raises `ValueError` (`list.index` miss). -/
def indexKeys (order : List String) : List String → Except String (List (String × Nat))
  | [] => .ok []
  | k :: ks =>
      match idxOf? order k with
      | none => .error (k ++ " is not in list")
      | some i => (indexKeys order ks).map (fun t => (k, i) :: t)

/-- Stable ascending insertion: the new item goes after every item the
comparator puts weakly before it (CPython `sorted` is stable ascending). -/
def insertOrd {α : Type} (le : α → α → Bool) (x : α) : List α → List α
  | [] => [x]
  | y :: ys => if le y x then y :: insertOrd le x ys else x :: y :: ys

/-- Stable sort by repeated insertion. -/
def sortOrd {α : Type} (le : α → α → Bool) (l : List α) : List α :=
  l.foldl (fun acc x => insertOrd le x acc) []

/-- Lexicographic comparison of character lists by code point — the order
Python string comparison uses. -/
def charListLe : List Char → List Char → Bool
  | [], _ => true
  | _ :: _, [] => false
  | a :: as1, b :: bs1 => if a = b then charListLe as1 bs1 else decide (a < b)

/-- Comparator for `sorted` on strings. -/
def strLeB (a b : String) : Bool :=
  charListLe a.data b.data

/-- Comparator for `sorted(..., key=...)` decorated pairs: compare table
indices only. -/
def idxLeB (p q : String × Nat) : Bool :=
  decide (p.2 ≤ q.2)

/-- The key-ordering stage of `lab_test_clean` (`types_os.py:364`): a name in
the fixed table sorts its keys by table index (raising on a key the table
does not list), any other name sorts alphabetically. -/
def sortRemainingKeys (name : String) (keys : List String) :
    Except String (List String) :=
  match tableFind name with
  | some order =>
      match indexKeys order keys with
      | .error e => .error e
      | .ok pairs => .ok ((sortOrd idxLeB pairs).map (·.1))
  | none => .ok (sortOrd strLeB keys)

/-- One rendered bullet line, `f"\n* {k}: {v}"`. -/
def renderBullet (k v : String) : String :=
  "\n* " ++ k ++ ": " ++ v

/-- One investigation block (`types_os.py:342`-`374`): name before the first
colon, body tokenized into the ordered dict, result keys emitted first in
encounter order and removed, remaining keys sorted, everything rendered. -/
def processBlock (inv : List Char) : Except String String :=
  match splitFirstOn ':' inv with
  | none => .error "not enough values to unpack (expected 2, got 1)"
  | some (n, v) =>
      let name := String.mk (pyStrip n)
      match buildDictAux [] (splitPairs (pyStrip v)) with
      | .error e => .error e
      | .ok d =>
          let resultKeys := (d.filter (fun p => isResultKey p.1)).map (·.1)
          let resultPart := String.join (resultKeys.map (fun k => renderBullet k (dictGet d k)))
          let d2 := d.filter (fun p => !(resultKeys.contains p.1))
          match sortRemainingKeys name (d2.map (·.1)) with
          | .error e => .error e
          | .ok sortedKeys =>
              .ok (name ++ ": " ++ resultPart ++
                String.join (sortedKeys.map (fun k => renderBullet k (dictGet d2 k))) ++ "\n\n")

/-- The block loop, concatenating rendered blocks and propagating the first
raise. -/
def processBlocks : List (List Char) → Except String String
  | [] => .ok ""
  | b :: rest =>
      match processBlock b with
      | .error e => .error e
      | .ok s => (processBlocks rest).map (fun t => s ++ t)

/-- `ClinicalDocumentation.lab_test_clean` (`types_os.py:328`): `None` in,
`None` out; the sentinel `"Not recorded"` passes through; otherwise strip the
boilerplate header, collapse doubled colons, split into blocks on blank lines
and process each block.  `Except.error` models a raised exception. -/
def lab_test_clean (lab_test : Option String) : Except String (Option String) :=
  match lab_test with
  | none => .ok none
  | some s =>
      if s = "Not recorded" then .ok (some "Not recorded")
      else
        let s1 := pyReplace s.data "**Investigations conducted:**\n".data "".data
        let s2 := pyReplace s1 "::".data ":".data
        match processBlocks (pySplitSub s2 "\n\n".data) with
        | .error e => .error e
        | .ok out => .ok (some out)

/-! ## Concrete sample values used by witness theorems -/

/-- A green observation finding. -/
def obsGreen : ResponseValue := ⟨Color.Green, "stable"⟩

/-- A red observation finding. -/
def obsRed : ResponseValue := ⟨Color.Red, "critical"⟩

/-- A yellow recommendation finding. -/
def recYellow : RecommendationValue := ⟨Color.Yellow, "review"⟩

/-- A payload with one green observation. -/
def payloadGreen : AIResponse := ⟨[obsGreen], [], Or.inl (List.cons_ne_nil _ _)⟩

/-- A payload with observations {Green, Red} and recommendation {Yellow}. -/
def payloadMixed : AIResponse :=
  ⟨[obsGreen, obsRed], [recYellow], Or.inl (List.cons_ne_nil _ _)⟩

/-- A call at time 10 with the green payload. -/
def callA : AICall :=
  ⟨.TreatmentRecommendation, payloadGreen, "u1", 10, "Up", "clinician", "Active", none⟩

/-- A call at time 20 with the mixed payload. -/
def callB : AICall :=
  ⟨.TreatmentRecommendation, payloadMixed, "u2", 20, "None", "clinician", "Active", none⟩

/-- A collection of the two calls, scoped to Treatment Recommendation. -/
def sampleScoped : AICalls := ⟨[callA, callB], some .TreatmentRecommendation⟩

/-- The same two calls with no scope set. -/
def sampleUnscoped : AICalls := ⟨[callA, callB], none⟩

/-- The table index of a key, as used to state table-order sortedness (only
applied to keys the table lists). -/
def idxNat (order : List String) (k : String) : Nat :=
  (idxOf? order k).getD 0

/-! ## Helper lemmas -/

theorem foldl_pickMax_spec {α : Type} (val : α → Nat) :
    ∀ (l : List α) (c : α),
      (l.foldl (pickMax val) c = c ∨ l.foldl (pickMax val) c ∈ l)
      ∧ val c ≤ val (l.foldl (pickMax val) c)
      ∧ ∀ x ∈ l, val x ≤ val (l.foldl (pickMax val) c) := by
  intro l
  induction l with
  | nil => exact fun c => ⟨Or.inl rfl, le_refl _, by simp⟩
  | cons y ys ih =>
      intro c
      simp only [List.foldl_cons]
      obtain ⟨hmem, hinit, hall⟩ := ih (pickMax val c y)
      have hc : val c ≤ val (pickMax val c y) := by
        by_cases h : val c < val y <;> simp [pickMax, h]
        omega
      have hy : val y ≤ val (pickMax val c y) := by
        by_cases h : val c < val y <;> simp [pickMax, h]
        omega
      have hcy : pickMax val c y = c ∨ pickMax val c y = y := by
        by_cases h : val c < val y <;> simp [pickMax, h]
      refine ⟨?_, le_trans hc hinit, ?_⟩
      · rcases hmem with h | h
        · rcases hcy with h2 | h2
          · exact Or.inl (h.trans h2)
          · exact Or.inr (by rw [h, h2]; exact List.mem_cons_self _ _)
        · exact Or.inr (List.mem_cons_of_mem _ h)
      · intro x hx
        rcases List.mem_cons.mp hx with h | h
        · subst h; exact le_trans hy hinit
        · exact hall x h

theorem foldl_pickMin_spec {α : Type} (val : α → Nat) :
    ∀ (l : List α) (c : α),
      (l.foldl (pickMin val) c = c ∨ l.foldl (pickMin val) c ∈ l)
      ∧ val (l.foldl (pickMin val) c) ≤ val c
      ∧ ∀ x ∈ l, val (l.foldl (pickMin val) c) ≤ val x := by
  intro l
  induction l with
  | nil => exact fun c => ⟨Or.inl rfl, le_refl _, by simp⟩
  | cons y ys ih =>
      intro c
      simp only [List.foldl_cons]
      obtain ⟨hmem, hinit, hall⟩ := ih (pickMin val c y)
      have hc : val (pickMin val c y) ≤ val c := by
        by_cases h : val y < val c <;> simp [pickMin, h]
        omega
      have hy : val (pickMin val c y) ≤ val y := by
        by_cases h : val y < val c <;> simp [pickMin, h]
        omega
      have hcy : pickMin val c y = c ∨ pickMin val c y = y := by
        by_cases h : val y < val c <;> simp [pickMin, h]
      refine ⟨?_, le_trans hinit hc, ?_⟩
      · rcases hmem with h | h
        · rcases hcy with h2 | h2
          · exact Or.inl (h.trans h2)
          · exact Or.inr (by rw [h, h2]; exact List.mem_cons_self _ _)
        · exact Or.inr (List.mem_cons_of_mem _ h)
      · intro x hx
        rcases List.mem_cons.mp hx with h | h
        · subst h; exact le_trans hinit hy
        · exact hall x h

theorem maxColorList_spec (cols : List Color) (h : cols ≠ []) :
    ∃ m, maxColorList cols = some m ∧ m ∈ cols ∧
      ∀ x ∈ cols, x.toNat ≤ m.toNat := by
  match cols, h with
  | c :: rest, _ =>
      obtain ⟨hmem, hinit, hall⟩ := foldl_pickMax_spec Color.toNat rest c
      refine ⟨rest.foldl (pickMax Color.toNat) c, rfl, ?_, ?_⟩
      · rcases hmem with h2 | h2
        · rw [h2]; exact List.mem_cons_self _ _
        · exact List.mem_cons_of_mem _ h2
      · intro x hx
        rcases List.mem_cons.mp hx with h2 | h2
        · subst h2; exact hinit
        · exact hall x h2

theorem AIResponse.severityList_ne_nil (r : AIResponse) : r.severityList ≠ [] := by
  intro hnil
  rw [AIResponse.severityList, List.append_eq_nil] at hnil
  rcases r.nonempty with h | h
  · exact h (List.map_eq_nil_iff.mp hnil.1)
  · exact h (List.map_eq_nil_iff.mp hnil.2)

theorem AICall.color_spec (call : AICall) :
    ∃ m, call.color = some m ∧ m ∈ call.response.severityList ∧
      ∀ s ∈ call.response.severityList, s.toNat ≤ m.toNat := by
  obtain ⟨m, h1, h2, h3⟩ :=
    maxColorList_spec call.response.severityList call.response.severityList_ne_nil
  exact ⟨m, h1, h2, h3⟩

theorem listColors_spec (l : List AICall) :
    ∃ cols, listColors l = some cols ∧
      List.Forall₂ (fun call col => AICall.color call = some col) l cols := by
  induction l with
  | nil => exact ⟨[], rfl, List.Forall₂.nil⟩
  | cons c rest ih =>
      obtain ⟨cols, hc, hf⟩ := ih
      obtain ⟨m, hm, _, _⟩ := AICall.color_spec c
      exact ⟨m :: cols, by simp [listColors, hm, hc], List.Forall₂.cons hm hf⟩

theorem forall2_mem_right {α β : Type} {R : α → β → Prop} :
    ∀ {l : List α} {cols : List β}, List.Forall₂ R l cols →
      ∀ col ∈ cols, ∃ x, x ∈ l ∧ R x col := by
  intro l cols h
  induction h with
  | nil => simp
  | cons hR _ ih =>
      intro col hcol
      rcases List.mem_cons.mp hcol with h1 | h1
      · exact ⟨_, List.mem_cons_self _ _, h1 ▸ hR⟩
      · obtain ⟨x, hx, hR2⟩ := ih col h1
        exact ⟨x, List.mem_cons_of_mem _ hx, hR2⟩

theorem forall2_mem_left {α β : Type} {R : α → β → Prop} :
    ∀ {l : List α} {cols : List β}, List.Forall₂ R l cols →
      ∀ x ∈ l, ∃ col, col ∈ cols ∧ R x col := by
  intro l cols h
  induction h with
  | nil => simp
  | cons hR _ ih =>
      intro x hx
      rcases List.mem_cons.mp hx with h1 | h1
      · exact ⟨_, List.mem_cons_self _ _, h1 ▸ hR⟩
      · obtain ⟨col, hcol, hR2⟩ := ih x h1
        exact ⟨col, List.mem_cons_of_mem _ hcol, hR2⟩

theorem mem_sevJoin (l : List AICall) (s : Color) :
    s ∈ (l.map (fun c => c.response.severityList)).foldr (· ++ ·) [] ↔
      ∃ call, call ∈ l ∧ s ∈ call.response.severityList := by
  induction l with
  | nil => simp
  | cons c rest ih =>
      simp only [List.map_cons, List.foldr_cons, List.mem_append, ih, List.mem_cons]
      constructor
      · rintro (h | ⟨call, hmem, hs⟩)
        · exact ⟨c, Or.inl rfl, h⟩
        · exact ⟨call, Or.inr hmem, hs⟩
      · rintro ⟨call, h | h, hs⟩
        · exact Or.inl (h ▸ hs)
        · exact Or.inr ⟨call, h, hs⟩

theorem colorMatches_iff (x : Except String (Option Color)) (c : Color) :
    colorMatches x c = true ↔ x = .ok (some c) := by
  rcases x with e | o
  · simp [colorMatches]
  · rcases o with _ | col
    · simp [colorMatches]
    · simp [colorMatches]

theorem for_rule_final_color_ok (a : AICalls) (r : ClinicalDecisionRule) :
    ∃ o, (a.for_rule r).final_color = .ok o := by
  rcases hc : a.calls.filter (fun x => decide (x.rule = r)) with _ | ⟨d, rest⟩
  · exact ⟨none, by simp [AICalls.final_color, AICalls.final, AICalls.for_rule, hc]⟩
  · obtain ⟨m, hm, _, _⟩ := AICall.color_spec (rest.foldl (pickMax AICall.time) d)
    exact ⟨some m, by
      simp [AICalls.final_color, AICalls.final, AICalls.for_rule, hc, hm]⟩

theorem for_rule_first_color_ok (a : AICalls) (r : ClinicalDecisionRule) :
    ∃ o, (a.for_rule r).first_color = .ok o := by
  rcases hc : a.calls.filter (fun x => decide (x.rule = r)) with _ | ⟨d, rest⟩
  · exact ⟨none, by simp [AICalls.first_color, AICalls.first, AICalls.for_rule, hc]⟩
  · obtain ⟨m, hm, _, _⟩ := AICall.color_spec (rest.foldl (pickMin AICall.time) d)
    exact ⟨some m, by
      simp [AICalls.first_color, AICalls.first, AICalls.for_rule, hc, hm]⟩

theorem insertOrd_perm {α : Type} (le : α → α → Bool) (x : α) :
    ∀ l : List α, (insertOrd le x l).Perm (x :: l) := by
  intro l
  induction l with
  | nil => simp [insertOrd]
  | cons y ys ih =>
      simp only [insertOrd]
      split
      · exact (ih.cons y).trans (List.Perm.swap x y ys)
      · exact List.Perm.refl _

theorem foldl_insertOrd_perm {α : Type} (le : α → α → Bool) :
    ∀ (l acc : List α), (l.foldl (fun a x => insertOrd le x a) acc).Perm (acc ++ l) := by
  intro l
  induction l with
  | nil => intro acc; simp
  | cons x xs ih =>
      intro acc
      simp only [List.foldl_cons]
      refine ((ih (insertOrd le x acc)).trans ?_)
      refine (List.Perm.append_right xs (insertOrd_perm le x acc)).trans ?_
      exact List.perm_middle.symm

theorem sortOrd_perm {α : Type} (le : α → α → Bool) (l : List α) :
    (sortOrd le l).Perm l := by
  simpa using foldl_insertOrd_perm le l []

theorem insertOrd_pairwise {α : Type} (le : α → α → Bool)
    (htot : ∀ a b, le a b = true ∨ le b a = true)
    (htrans : ∀ a b c, le a b = true → le b c = true → le a c = true)
    (x : α) :
    ∀ l : List α, l.Pairwise (fun a b => le a b = true) →
      (insertOrd le x l).Pairwise (fun a b => le a b = true) := by
  intro l
  induction l with
  | nil => intro _; simp [insertOrd]
  | cons y ys ih =>
      intro h
      rw [List.pairwise_cons] at h
      obtain ⟨hy, hys⟩ := h
      simp only [insertOrd]
      split
      · rename_i hle
        rw [List.pairwise_cons]
        refine ⟨?_, ih hys⟩
        intro z hz
        rcases List.mem_cons.mp ((insertOrd_perm le x ys).mem_iff.mp hz) with h1 | h1
        · rw [h1]; exact hle
        · exact hy z h1
      · rename_i hle
        have hxy : le x y = true := by
          rcases htot x y with h1 | h1
          · exact h1
          · exact absurd h1 hle
        rw [List.pairwise_cons]
        refine ⟨?_, List.pairwise_cons.mpr ⟨hy, hys⟩⟩
        intro z hz
        rcases List.mem_cons.mp hz with h1 | h1
        · rw [h1]; exact hxy
        · exact htrans x y z hxy (hy z h1)

theorem foldl_insertOrd_pairwise {α : Type} (le : α → α → Bool)
    (htot : ∀ a b, le a b = true ∨ le b a = true)
    (htrans : ∀ a b c, le a b = true → le b c = true → le a c = true) :
    ∀ (l acc : List α), acc.Pairwise (fun a b => le a b = true) →
      (l.foldl (fun a x => insertOrd le x a) acc).Pairwise (fun a b => le a b = true) := by
  intro l
  induction l with
  | nil => intro acc h; simpa using h
  | cons x xs ih =>
      intro acc h
      simp only [List.foldl_cons]
      exact ih _ (insertOrd_pairwise le htot htrans x acc h)

theorem sortOrd_pairwise {α : Type} (le : α → α → Bool)
    (htot : ∀ a b, le a b = true ∨ le b a = true)
    (htrans : ∀ a b c, le a b = true → le b c = true → le a c = true)
    (l : List α) :
    (sortOrd le l).Pairwise (fun a b => le a b = true) :=
  foldl_insertOrd_pairwise le htot htrans l [] List.Pairwise.nil

theorem charListLe_not_lt : ∀ s t : List Char, charListLe s t = true ↔ ¬ List.lt t s := by
  intro s
  induction s with
  | nil =>
      intro t
      constructor
      · intro _ h
        cases h
      · intro _
        rfl
  | cons a as ih =>
      intro t
      cases t with
      | nil =>
          constructor
          · intro h
            simp [charListLe] at h
          · intro h
            exact absurd (List.lt.nil a as) h
      | cons b bs =>
          simp only [charListLe]
          by_cases hab : a = b
          · subst hab
            rw [if_pos rfl, ih bs]
            constructor
            · intro h hlt
              cases hlt with
              | head _ _ h2 => exact absurd h2 (lt_irrefl a)
              | tail h1 h2 h3 => exact h h3
            · intro h h3
              exact h (List.lt.tail (lt_irrefl a) (lt_irrefl a) h3)
          · rw [if_neg hab]
            simp only [decide_eq_true_eq]
            by_cases hlt : a < b
            · constructor
              · intro _ hl
                cases hl with
                | head _ _ h2 => exact absurd h2 (asymm hlt)
                | tail h1 h2 h3 => exact h2 hlt
              · intro _
                exact hlt
            · have hba : b < a := by
                rcases lt_trichotomy a b with h | h | h
                · exact absurd h hlt
                · exact absurd h hab
                · exact h
              constructor
              · intro h2
                exact absurd h2 hlt
              · intro h2
                exact absurd (List.lt.head bs as hba) h2

theorem strLeB_iff (a b : String) : strLeB a b = true ↔ a ≤ b := by
  rw [strLeB, charListLe_not_lt, ← not_lt]
  apply not_congr
  rw [String.lt_iff_toList_lt]
  exact List.lt_iff_lex_lt _ _

theorem strLeB_total (a b : String) : strLeB a b = true ∨ strLeB b a = true := by
  rcases le_total a b with h | h
  · exact Or.inl ((strLeB_iff a b).mpr h)
  · exact Or.inr ((strLeB_iff b a).mpr h)

theorem strLeB_trans (a b c : String) :
    strLeB a b = true → strLeB b c = true → strLeB a c = true := by
  intro h1 h2
  exact (strLeB_iff a c).mpr (le_trans ((strLeB_iff a b).mp h1) ((strLeB_iff b c).mp h2))

theorem idxLeB_total (p q : String × Nat) : idxLeB p q = true ∨ idxLeB q p = true := by
  simp only [idxLeB, decide_eq_true_eq]
  omega

theorem idxLeB_trans (p q r : String × Nat) :
    idxLeB p q = true → idxLeB q r = true → idxLeB p r = true := by
  simp only [idxLeB, decide_eq_true_eq]
  omega

theorem indexKeys_ok (order : List String) :
    ∀ (keys : List String) (pairs : List (String × Nat)),
      indexKeys order keys = .ok pairs →
      pairs.map (·.1) = keys ∧ ∀ p ∈ pairs, idxOf? order p.1 = some p.2 := by
  intro keys
  induction keys with
  | nil =>
      intro pairs h
      simp only [indexKeys] at h
      injection h with h
      subst h
      exact ⟨rfl, by simp⟩
  | cons k ks ih =>
      intro pairs h
      simp only [indexKeys] at h
      cases hidx : idxOf? order k with
      | none => rw [hidx] at h; cases h
      | some i =>
          rw [hidx] at h
          cases hrec : indexKeys order ks with
          | error e => rw [hrec] at h; cases h
          | ok t =>
              rw [hrec] at h
              simp only [Except.map] at h
              injection h with h
              subst h
              obtain ⟨h1, h2⟩ := ih t hrec
              refine ⟨by simp [h1], ?_⟩
              intro p hp
              rcases List.mem_cons.mp hp with h3 | h3
              · rw [h3]; exact hidx
              · exact h2 p h3

theorem indexKeys_err (order : List String) :
    ∀ (keys : List String) (k : String), k ∈ keys → idxOf? order k = none →
      ∃ e, indexKeys order keys = .error e := by
  intro keys
  induction keys with
  | nil =>
      intro k h
      simp at h
  | cons k0 ks ih =>
      intro k hk hnone
      rcases List.mem_cons.mp hk with h | h
      · subst h
        exact ⟨k ++ " is not in list", by simp [indexKeys, hnone]⟩
      · cases hidx : idxOf? order k0 with
        | none => exact ⟨k0 ++ " is not in list", by simp [indexKeys, hidx]⟩
        | some i =>
            obtain ⟨e, he⟩ := ih k h hnone
            exact ⟨e, by simp [indexKeys, hidx, he, Except.map]⟩

theorem isPySpace_ne (c : Char) (h : isPySpace c = true) : c ≠ ',' ∧ c ≠ ':' := by
  simp only [isPySpace, Bool.or_eq_true, decide_eq_true_eq] at h
  rcases h with ((((h | h) | h) | h) | h) | h <;> subst h <;> exact ⟨by decide, by decide⟩

theorem scanColon_iff (cs : List Char) :
    scanColon cs = true ↔
      ∃ k rest, cs = k ++ ':' :: rest ∧ ∀ ch ∈ k, ch ≠ ',' ∧ ch ≠ ':' := by
  induction cs with
  | nil =>
      constructor
      · intro h
        simp [scanColon] at h
      · rintro ⟨k, rest, h, _⟩
        cases k <;> simp at h
  | cons c cs2 ih =>
      simp only [scanColon]
      by_cases hc : c = ':'
      · subst hc
        rw [if_pos rfl]
        constructor
        · intro _
          exact ⟨[], cs2, rfl, by simp⟩
        · intro _
          rfl
      · by_cases hcm : c = ','
        · subst hcm
          rw [if_neg (by decide : ¬(',' = ':')), if_pos rfl]
          constructor
          · intro h
            exact absurd h (by decide)
          · rintro ⟨k, rest, heq, hk⟩
            cases k with
            | nil =>
                rw [List.nil_append] at heq
                injection heq with h1 _
                exact absurd h1 (by decide)
            | cons a k2 =>
                rw [List.cons_append] at heq
                injection heq with h1 _
                exact absurd h1.symm (hk a (List.mem_cons_self a k2)).1
        · rw [if_neg hc, if_neg hcm, ih]
          constructor
          · rintro ⟨k, rest, heq, hk⟩
            refine ⟨c :: k, rest, ?_, ?_⟩
            · rw [List.cons_append, heq]
            · intro ch hch
              rcases List.mem_cons.mp hch with h | h
              · rw [h]; exact ⟨hcm, hc⟩
              · exact hk ch h
          · rintro ⟨k, rest, heq, hk⟩
            cases k with
            | nil =>
                rw [List.nil_append] at heq
                injection heq with h1 _
                exact absurd h1 hc
            | cons a k2 =>
                rw [List.cons_append] at heq
                injection heq with h1 h2
                exact ⟨k2, rest, h2, fun ch hch => hk ch (List.mem_cons_of_mem a hch)⟩

theorem lookaheadOk_iff (cs : List Char) :
    lookaheadOk cs = true ↔
      ∃ w k rest, cs = w ++ k ++ ':' :: rest ∧ (∀ ch ∈ w, isPySpace ch = true)
        ∧ k ≠ [] ∧ ∀ ch ∈ k, ch ≠ ',' ∧ ch ≠ ':' := by
  cases cs with
  | nil =>
      constructor
      · intro h
        exact absurd h (by simp [lookaheadOk])
      · rintro ⟨w, k, rest, heq, _, hk, _⟩
        exfalso
        rcases w with _ | ⟨a, w2⟩ <;> rcases k with _ | ⟨b, k2⟩ <;> simp at heq
  | cons c cs2 =>
      simp only [lookaheadOk]
      by_cases hcond : (decide (c = ':') || decide (c = ',')) = true
      · rw [if_pos hcond]
        simp only [Bool.or_eq_true, decide_eq_true_eq] at hcond
        constructor
        · intro h
          exact absurd h (by decide)
        · rintro ⟨w, k, rest, heq, hw, hk, hkc⟩
          exfalso
          cases w with
          | nil =>
              cases k with
              | nil => exact hk rfl
              | cons b k2 =>
                  simp only [List.nil_append, List.cons_append] at heq
                  injection heq with h1 _
                  have h2 := hkc b (List.mem_cons_self b k2)
                  rcases hcond with h | h
                  · exact h2.2 (h1 ▸ h)
                  · exact h2.1 (h1 ▸ h)
          | cons a w2 =>
              simp only [List.cons_append] at heq
              injection heq with h1 _
              have h2 := isPySpace_ne a (hw a (List.mem_cons_self a w2))
              rcases hcond with h | h
              · exact h2.2 (h1 ▸ h)
              · exact h2.1 (h1 ▸ h)
      · rw [if_neg hcond]
        simp only [Bool.or_eq_true, decide_eq_true_eq] at hcond
        push_neg at hcond
        rw [scanColon_iff]
        constructor
        · rintro ⟨k, rest, heq, hk⟩
          refine ⟨[], c :: k, rest, ?_, by simp, by simp, ?_⟩
          · simp only [List.nil_append, List.cons_append]
            rw [heq]
          · intro ch hch
            rcases List.mem_cons.mp hch with h | h
            · rw [h]; exact ⟨hcond.2, hcond.1⟩
            · exact hk ch h
        · rintro ⟨w, k, rest, heq, hw, hk, hkc⟩
          cases w with
          | nil =>
              cases k with
              | nil => exact absurd rfl hk
              | cons b k2 =>
                  simp only [List.nil_append, List.cons_append] at heq
                  injection heq with _ h2
                  exact ⟨k2, rest, h2, fun ch hch => hkc ch (List.mem_cons_of_mem b hch)⟩
          | cons a w2 =>
              simp only [List.cons_append] at heq
              injection heq with _ h2
              refine ⟨w2 ++ k, rest, ?_, ?_⟩
              · rw [h2, List.append_assoc]
              · intro ch hch
                rcases List.mem_append.mp hch with h | h
                · exact isPySpace_ne ch (hw ch (List.mem_cons_of_mem a h))
                · exact hkc ch h

theorem splitFirstOn_spec (sep : Char) :
    ∀ (cs k v : List Char), splitFirstOn sep cs = some (k, v) →
      cs = k ++ sep :: v ∧ sep ∉ k := by
  intro cs
  induction cs with
  | nil =>
      intro k v h
      simp [splitFirstOn] at h
  | cons c rest ih =>
      intro k v h
      simp only [splitFirstOn] at h
      by_cases hc : c = sep
      · subst hc
        rw [if_pos rfl] at h
        injection h with h
        cases h
        simp
      · rw [if_neg hc] at h
        cases hrec : splitFirstOn sep rest with
        | none => rw [hrec] at h; cases h
        | some p =>
            obtain ⟨a, b⟩ := p
            rw [hrec] at h
            injection h with h
            cases h
            obtain ⟨ih1, ih2⟩ := ih _ _ hrec
            refine ⟨by rw [List.cons_append, ← ih1], ?_⟩
            intro hmem
            rcases List.mem_cons.mp hmem with h | h
            · exact hc h.symm
            · exact ih2 h

/-! ## Claim theorems -/

/-- C1: In the investigation normalizer a comma is a key/value pair separator
exactly when it is followed, after optional whitespace, by a run of
non-comma, non-colon characters and then a colon (the lookahead the
tokenizer tests at every comma); each chunk is split on its first colon only
(the part before the colon contains no colon); and on the example input the
output keeps the investigation name, emits the `Result..` bullet first, then
`WBC` and `HGB` in the table-declared order, with HGB's value `13,400`
preserved. -/
theorem C1_comma_tokenizer :
    (∀ cs : List Char, lookaheadOk cs = true ↔
       ∃ w k rest, cs = w ++ k ++ ':' :: rest ∧ (∀ ch ∈ w, isPySpace ch = true)
         ∧ k ≠ [] ∧ ∀ ch ∈ k, ch ≠ ',' ∧ ch ≠ ':')
    ∧ (∀ (cs k v : List Char), splitFirstOn ':' cs = some (k, v) →
        cs = k ++ ':' :: v ∧ ':' ∉ k)
    ∧ lab_test_clean (some "Full Haemogram (FHG): Result..: Normal, WBC: 7.2, HGB: 13,400")
      = .ok (some "Full Haemogram (FHG): \n* Result..: Normal\n* WBC: 7.2\n* HGB: 13,400\n\n") :=
  ⟨lookaheadOk_iff, splitFirstOn_spec ':', rfl⟩

/-- C1 witness: the lookahead characterization applied to the concrete text
after the first comma of the example input. -/
theorem C1_witness :
    ∃ w k rest, " WBC: 7.2".data = w ++ k ++ ':' :: rest ∧
      (∀ ch ∈ w, isPySpace ch = true) ∧ k ≠ [] ∧
      ∀ ch ∈ k, ch ≠ ',' ∧ ch ≠ ':' :=
  (C1_comma_tokenizer.1 " WBC: 7.2".data).mp (by decide)

/-- C2: temporal queries — with no scope rule both `first` and `final` fail
with the "not defined ... no rule" error; with a scope and no calls they
return `None` without error; otherwise `first` returns a call of minimum
timestamp and `final` a call of maximum timestamp.  The embedding is a pure
function, so repeated invocation on identical input is identical by
definition; moreover CPython `min`/`max` keep the first extremal element in
input order, which the `pickMin`/`pickMax` folds reproduce. -/
theorem C2_temporal_queries (a : AICalls) :
    (a.rule = none →
      a.first = .error "The first call is not defined for an AICalls object with no rule" ∧
      a.final = .error "The final call is not defined for an AICalls object with no rule")
    ∧ (a.rule ≠ none → a.calls = [] → a.first = .ok none ∧ a.final = .ok none)
    ∧ (a.rule ≠ none → a.calls ≠ [] →
        (∃ c, c ∈ a.calls ∧ a.first = .ok (some c) ∧ ∀ d ∈ a.calls, c.time ≤ d.time)
      ∧ (∃ c, c ∈ a.calls ∧ a.final = .ok (some c) ∧ ∀ d ∈ a.calls, d.time ≤ c.time)) := by
  refine ⟨?_, ?_, ?_⟩
  · intro h
    exact ⟨by simp [AICalls.first, h], by simp [AICalls.final, h]⟩
  · intro h hemp
    cases hr : a.rule with
    | none => exact absurd hr h
    | some r =>
        exact ⟨by simp [AICalls.first, hr, hemp], by simp [AICalls.final, hr, hemp]⟩
  · intro h hne
    cases hr : a.rule with
    | none => exact absurd hr h
    | some r =>
        cases hc : a.calls with
        | nil => exact absurd hc hne
        | cons c rest =>
            obtain ⟨hmem1, hinit1, hall1⟩ := foldl_pickMin_spec AICall.time rest c
            obtain ⟨hmem2, hinit2, hall2⟩ := foldl_pickMax_spec AICall.time rest c
            constructor
            · refine ⟨rest.foldl (pickMin AICall.time) c, ?_, ?_, ?_⟩
              · rcases hmem1 with h1 | h1
                · rw [h1]; exact List.mem_cons_self c rest
                · exact List.mem_cons_of_mem c h1
              · simp [AICalls.first, hr, hc]
              · intro d hd
                rcases List.mem_cons.mp hd with h1 | h1
                · rw [h1]; exact hinit1
                · exact hall1 d h1
            · refine ⟨rest.foldl (pickMax AICall.time) c, ?_, ?_, ?_⟩
              · rcases hmem2 with h1 | h1
                · rw [h1]; exact List.mem_cons_self c rest
                · exact List.mem_cons_of_mem c h1
              · simp [AICalls.final, hr, hc]
              · intro d hd
                rcases List.mem_cons.mp hd with h1 | h1
                · rw [h1]; exact hinit2
                · exact hall2 d h1

/-- C2 witness: the temporal-query theorem applied to the concrete scoped
two-call collection. -/
theorem C2_witness :
    ∃ c, c ∈ sampleScoped.calls ∧ sampleScoped.first = .ok (some c) ∧
      ∀ d ∈ sampleScoped.calls, c.time ≤ d.time :=
  ((C2_temporal_queries sampleScoped).2.2 (by simp [sampleScoped])
    (by simp [sampleScoped])).1

/-- C3: `anyFinalColor` / `anyFirstColor` return true exactly when some rule
of the full fixed rule set has a scoped sub-collection whose final/first
color is the queried severity, and the per-rule sub-queries never raise (a
rule with no calls contributes the empty color, which the membership test
ignores), so the query always produces a boolean. -/
theorem C3_any_color_queries (a : AICalls) (c : Color) :
    (a.any_final_color c = true ↔
      ∃ r, r ∈ allRules ∧ (a.for_rule r).final_color = .ok (some c))
    ∧ (a.any_first_color c = true ↔
      ∃ r, r ∈ allRules ∧ (a.for_rule r).first_color = .ok (some c))
    ∧ (∀ r, ∃ o, (a.for_rule r).final_color = .ok o)
    ∧ (∀ r, ∃ o, (a.for_rule r).first_color = .ok o) := by
  refine ⟨?_, ?_, fun r => for_rule_final_color_ok a r,
    fun r => for_rule_first_color_ok a r⟩
  · rw [AICalls.any_final_color, List.any_eq_true]
    constructor
    · rintro ⟨r, hr, hm⟩
      exact ⟨r, hr, (colorMatches_iff _ c).mp hm⟩
    · rintro ⟨r, hr, hm⟩
      exact ⟨r, hr, (colorMatches_iff _ c).mpr hm⟩
  · rw [AICalls.any_first_color, List.any_eq_true]
    constructor
    · rintro ⟨r, hr, hm⟩
      exact ⟨r, hr, (colorMatches_iff _ c).mp hm⟩
    · rintro ⟨r, hr, hm⟩
      exact ⟨r, hr, (colorMatches_iff _ c).mpr hm⟩

/-- C3 witness: on the concrete unscoped collection, `anyFinalColor Red`
holds through the Treatment Recommendation sub-collection. -/
theorem C3_witness :
    ∃ r, r ∈ allRules ∧
      (sampleUnscoped.for_rule r).final_color = .ok (some Color.Red) :=
  ((C3_any_color_queries sampleUnscoped Color.Red).1).mp (by decide)

/-- C4: severity validation.  The symbolic names Green/Yellow/Red map to the
scale values and any other string fails with an "Invalid severity" error
naming the value — but a raw value that is already a member of the scale is
NOT passed through: `global_validate_severity` only returns a value for
strings, so a scale member yields Python `None` and field validation then
rejects it.  This contradicts the claim's "already a member" clause: the
code is missing a `return v` for the non-string case. -/
theorem C4_severity_validation :
    global_validate_severity (RawSeverity.str "Green") = .ok (some Color.Green)
    ∧ global_validate_severity (RawSeverity.str "Yellow") = .ok (some Color.Yellow)
    ∧ global_validate_severity (RawSeverity.str "Red") = .ok (some Color.Red)
    ∧ global_validate_severity (RawSeverity.str "Purple") = .error "Invalid severity: Purple"
    ∧ (∀ col : Color, global_validate_severity (RawSeverity.member col) = .ok none)
    ∧ validateSeverityField (RawSeverity.member Color.Green) =
        .error "Input should be an instance of Color" :=
  ⟨rfl, rfl, rfl, rfl, fun _ => rfl, rfl⟩

/-- C5: a call's color is the maximum severity over the pooled observation
and recommendation severities of its (valid, hence non-empty) payload; on
observations {Green, Red} with recommendation {Yellow} it is Red. -/
theorem C5_call_color :
    (∀ call : AICall, ∃ m, call.color = some m ∧ m ∈ call.response.severityList ∧
      ∀ s ∈ call.response.severityList, s.toNat ≤ m.toNat)
    ∧ callB.color = some Color.Red :=
  ⟨AICall.color_spec, rfl⟩

/-- C5 witness: the color characterization at the concrete green call. -/
theorem C5_witness :
    ∃ m, callA.color = some m ∧ m ∈ callA.response.severityList ∧
      ∀ s ∈ callA.response.severityList, s.toNat ≤ m.toNat :=
  C5_call_color.1 callA

/-- C6: constructing a payload with zero findings of both kinds fails the
`check_nonempty` validator; with at least one finding of either kind it
succeeds and keeps both lists. -/
theorem C6_payload_nonempty (resp : List ResponseValue) (recs : List RecommendationValue) :
    ((resp = [] ∧ recs = []) →
      mkAIResponse resp recs =
        .error "AIResponse must have at least one response value or at least one recommendation value")
    ∧ ((resp ≠ [] ∨ recs ≠ []) →
      ∃ r, mkAIResponse resp recs = .ok r ∧ r.responses = resp ∧
        r.recommendations = recs) := by
  constructor
  · intro h
    rw [mkAIResponse, dif_pos h]
  · intro h
    have h2 : ¬ (resp = [] ∧ recs = []) := by
      rintro ⟨h1, h3⟩
      rcases h with h | h
      · exact h h1
      · exact h h3
    exact ⟨_, by rw [mkAIResponse, dif_neg h2], rfl, rfl⟩

/-- C6 witness: the construction contract at concrete payloads. -/
theorem C6_witness :
    mkAIResponse [] [] =
      .error "AIResponse must have at least one response value or at least one recommendation value"
    ∧ ∃ r, mkAIResponse [obsGreen] [] = .ok r ∧ r.responses = [obsGreen] ∧
        r.recommendations = [] :=
  ⟨(C6_payload_nonempty [] []).1 ⟨rfl, rfl⟩,
   (C6_payload_nonempty [obsGreen] []).2 (Or.inl (List.cons_ne_nil _ _))⟩

theorem indexKeys_total (order : List String) :
    ∀ keys, (∀ k ∈ keys, idxOf? order k ≠ none) →
      ∃ pairs, indexKeys order keys = .ok pairs := by
  intro keys
  induction keys with
  | nil => exact fun _ => ⟨[], rfl⟩
  | cons k ks ih =>
      intro h
      cases hidx : idxOf? order k with
      | none => exact absurd hidx (h k (List.mem_cons_self k ks))
      | some i =>
          obtain ⟨pairs, hp⟩ := ih (fun x hx => h x (List.mem_cons_of_mem k hx))
          exact ⟨(k, i) :: pairs, by simp [indexKeys, hidx, hp, Except.map]⟩

/-- C7 counterexample: a block whose investigation name is in the field-order
table but which contains a key the table does not list makes the normalizer
raise (the `list.index` miss), rather than being handled by a fallback. -/
theorem C7_counterexample :
    lab_test_clean (some "Full Haemogram (FHG): WBC: 7.2, Bogus: 1")
      = .error "Bogus is not in list" := rfl

/-- C7 (amended): after result-key extraction, a block whose investigation
name is not in the field-order table sorts its remaining keys
alphabetically; a name in the table sorts them by the table's declared index
when every key appears in the table; and a key absent from the matched table
makes the sort fail with an error — there is no fallback. -/
theorem C7_key_ordering :
    (∀ name keys, tableFind name = none →
      ∃ l, sortRemainingKeys name keys = .ok l ∧ l.Perm keys ∧
        l.Pairwise (fun a b : String => a ≤ b))
    ∧ (∀ name order keys, tableFind name = some order →
        (∀ k ∈ keys, idxOf? order k ≠ none) →
        ∃ l, sortRemainingKeys name keys = .ok l ∧ l.Perm keys ∧
          l.Pairwise (fun a b => idxNat order a ≤ idxNat order b))
    ∧ (∀ name order keys k, tableFind name = some order → k ∈ keys →
        idxOf? order k = none → ∃ e, sortRemainingKeys name keys = .error e) := by
  refine ⟨?_, ?_, ?_⟩
  · intro name keys h
    refine ⟨sortOrd strLeB keys, by simp [sortRemainingKeys, h],
      sortOrd_perm strLeB keys, ?_⟩
    exact (sortOrd_pairwise strLeB strLeB_total strLeB_trans keys).imp
      (fun h2 => (strLeB_iff _ _).mp h2)
  · intro name order keys h hall
    obtain ⟨pairs, hp⟩ := indexKeys_total order keys hall
    obtain ⟨hmap, hidxs⟩ := indexKeys_ok order keys pairs hp
    refine ⟨(sortOrd idxLeB pairs).map (·.1), ?_, ?_, ?_⟩
    · simp [sortRemainingKeys, h, hp]
    · have hperm := (sortOrd_perm idxLeB pairs).map (·.1)
      rw [hmap] at hperm
      exact hperm
    · rw [List.pairwise_map]
      refine List.Pairwise.imp_of_mem ?_
        (sortOrd_pairwise idxLeB idxLeB_total idxLeB_trans pairs)
      intro p q hpmem hqmem hle
      have hp2 := hidxs p ((sortOrd_perm idxLeB pairs).mem_iff.mp hpmem)
      have hq2 := hidxs q ((sortOrd_perm idxLeB pairs).mem_iff.mp hqmem)
      simp only [idxNat, hp2, hq2, Option.getD_some]
      simpa [idxLeB] using hle
  · intro name order keys k h hk hnone
    obtain ⟨e, he⟩ := indexKeys_err order keys k hk hnone
    exact ⟨e, by simp [sortRemainingKeys, h, he]⟩

/-- C7 witness: the ordering characterization at a concrete untabulated
investigation name. -/
theorem C7_witness :
    ∃ l, sortRemainingKeys "Random Panel" ["b", "a"] = .ok l ∧
      l.Perm ["b", "a"] ∧ l.Pairwise (fun a b : String => a ≤ b) :=
  C7_key_ordering.1 "Random Panel" ["b", "a"] (by decide)

/-- C8: the normalizer passes absent input (Python `None`) through as absent
output, and the sentinel `"Not recorded"` through unchanged. -/
theorem C8_passthrough :
    lab_test_clean none = .ok none ∧
    lab_test_clean (some "Not recorded") = .ok (some "Not recorded") :=
  ⟨rfl, rfl⟩

/-- C9: `forCategory` returns exactly the calls of the requested rule, as a
sublist of the source (relative order preserved), with scope set to the
rule; `forCategories` returns exactly the calls whose rule is in the given
set, as a sublist, with no scope.  Both build a new collection from the
source's list; the source is never modified (the embedding is pure). -/
theorem C9_filtering (a : AICalls) (r : ClinicalDecisionRule)
    (rs : List ClinicalDecisionRule) :
    ((∀ c, c ∈ (a.for_rule r).calls ↔ c ∈ a.calls ∧ c.rule = r)
     ∧ (a.for_rule r).calls.Sublist a.calls
     ∧ (a.for_rule r).rule = some r)
    ∧ ((∀ c, c ∈ (a.for_rules rs).calls ↔ c ∈ a.calls ∧ c.rule ∈ rs)
     ∧ (a.for_rules rs).calls.Sublist a.calls
     ∧ (a.for_rules rs).rule = none) := by
  refine ⟨⟨?_, ?_, rfl⟩, ?_, ?_, rfl⟩
  · intro c
    simp [AICalls.for_rule, List.mem_filter]
  · exact List.filter_sublist a.calls
  · intro c
    simp [AICalls.for_rules, List.mem_filter]
  · exact List.filter_sublist a.calls

/-- C9 witness: the filtering contract at the concrete unscoped collection. -/
theorem C9_witness :
    (sampleUnscoped.for_rule ClinicalDecisionRule.TreatmentRecommendation).rule =
      some ClinicalDecisionRule.TreatmentRecommendation
    ∧ (sampleUnscoped.for_rules [ClinicalDecisionRule.TreatmentRecommendation,
        ClinicalDecisionRule.DiagnosisEvaluation]).rule = none :=
  ⟨(C9_filtering sampleUnscoped ClinicalDecisionRule.TreatmentRecommendation
      [ClinicalDecisionRule.TreatmentRecommendation,
       ClinicalDecisionRule.DiagnosisEvaluation]).1.2.2,
   (C9_filtering sampleUnscoped ClinicalDecisionRule.TreatmentRecommendation
      [ClinicalDecisionRule.TreatmentRecommendation,
       ClinicalDecisionRule.DiagnosisEvaluation]).2.2.2⟩

/-- C10: `worstColor` is empty exactly when the collection has no calls, and
otherwise is the maximum severity over every finding severity (observations
and recommendations pooled) of every call — the maximum of the per-call
maxima coincides with the global maximum. -/
theorem C10_worst_color (a : AICalls) :
    (a.worst_color = .ok none ↔ a.calls = [])
    ∧ (a.calls ≠ [] → ∃ m, a.worst_color = .ok (some m) ∧
        m ∈ a.allFindingSeverities ∧
        ∀ s ∈ a.allFindingSeverities, s.toNat ≤ m.toNat) := by
  cases hc : a.calls with
  | nil =>
      refine ⟨?_, fun h => absurd rfl h⟩
      simp [AICalls.worst_color, AICalls.colors_seen, hc]
  | cons c rest =>
      obtain ⟨cols, hlc, hf⟩ := listColors_spec (c :: rest)
      have hcolsne : cols ≠ [] := by
        cases hf
        simp
      obtain ⟨m, hmax, hmem, hall⟩ := maxColorList_spec cols hcolsne
      have hworst : a.worst_color = .ok (some m) := by
        simp [AICalls.worst_color, AICalls.colors_seen, hc, hlc, hmax]
      refine ⟨?_, ?_⟩
      · rw [hworst]
        simp
      · intro _
        refine ⟨m, hworst, ?_, ?_⟩
        · obtain ⟨call, hcallmem, hcol⟩ := forall2_mem_right hf m hmem
          obtain ⟨m2, hm2, hm2mem, _⟩ := AICall.color_spec call
          rw [hcol] at hm2
          injection hm2 with hm2
          simp only [AICalls.allFindingSeverities, hc, mem_sevJoin]
          refine ⟨call, hcallmem, ?_⟩
          rw [hm2]
          exact hm2mem
        · intro s hs
          simp only [AICalls.allFindingSeverities, hc, mem_sevJoin] at hs
          obtain ⟨call, hcallmem, hsev⟩ := hs
          obtain ⟨col, hcolmem, hcol⟩ := forall2_mem_left hf call hcallmem
          obtain ⟨m2, hm2, _, hm2all⟩ := AICall.color_spec call
          rw [hcol] at hm2
          injection hm2 with hm2
          have h1 : s.toNat ≤ col.toNat := by
            rw [hm2]
            exact hm2all s hsev
          exact le_trans h1 (hall col hcolmem)

/-- C10 witness: the worst-color characterization at the concrete non-empty
collection. -/
theorem C10_witness :
    ∃ m, sampleUnscoped.worst_color = .ok (some m) ∧
      m ∈ sampleUnscoped.allFindingSeverities ∧
      ∀ s ∈ sampleUnscoped.allFindingSeverities, s.toNat ≤ m.toNat :=
  (C10_worst_color sampleUnscoped).2 (by simp [sampleUnscoped])
